import Mathlib

/-!
Verification of the detection-statistics notebook (`detection.ipynb`).

The notebook defines two pure functions:

* `snr_threshold_given_false_positive_rate(p) = 10*log10(gammaincinv(1, 1-p))`
* `true_positive_rate_given_snr_and_threshold(threshold, snr, isPeak=False)
     = 1 - ncx2.cdf(2*10**(threshold/10), 2, factor*10**(snr/10))`
  with `factor = 1` when `isPeak` else `2`.

We embed them over `ℝ`.  The library calls are embedded by their mathematical
definitions: `scipy.special.gammaincinv(1, ·)` is the inverse of the
regularized lower incomplete gamma function of shape 1 (whose value we define
by its integral and prove equal to `1 - exp (-x)`), and `scipy.stats.ncx2.cdf`
with 2 degrees of freedom is the standard Poisson mixture of central
chi-squared CDFs of even degrees of freedom.  A second model tracks the IEEE
special values (`inf`, `-inf`, `nan`) that the scipy/numpy pipeline produces
for out-of-domain inputs, since the notebook performs no input validation.
-/

noncomputable section

namespace Detection

/-- Regularized lower incomplete gamma function of shape parameter 1,
`P(1, x) = (1/Γ(1)) ∫ t ∈ [0, x], t^0 e^(-t) dt` (note `Γ(1) = 1`).  This is the
mathematical function behind `scipy.special.gammainc(1, ·)`. -/
def gammainc1 (x : ℝ) : ℝ := ∫ t in (0:ℝ)..x, Real.exp (-t)

/-- Value of `scipy.special.gammaincinv(1, y)` for `y ∈ [0, 1)`: the inverse of
`gammainc1`, namely `-ln (1 - y)`.  The inverse property is proved in
`gammainc1_gammaincinv1` below. -/
def gammaincinv1 (y : ℝ) : ℝ := -Real.log (1 - y)

/-- Embedding of the notebook's `snr_threshold_given_false_positive_rate`:
`10*np.log10(sp.special.gammaincinv(1, 1-false_positive_rate))`. -/
def snr_threshold_given_false_positive_rate (false_positive_rate : ℝ) : ℝ :=
  10 * Real.logb 10 (gammaincinv1 (1 - false_positive_rate))

/-- Poisson probability mass function with mean `mu` at `j`. -/
def poissonPMF (mu : ℝ) (j : ℕ) : ℝ := Real.exp (-mu) * mu ^ j / j.factorial

/-- CDF of the central chi-squared distribution with `2*(j+1)` degrees of
freedom at `x ≥ 0`: `1 - e^(-x/2) * ∑ m ≤ j, (x/2)^m / m!`. -/
def chi2EvenCDF (j : ℕ) (x : ℝ) : ℝ :=
  1 - Real.exp (-(x / 2)) * ∑ m ∈ Finset.range (j + 1), (x / 2) ^ m / m.factorial

/-- CDF of the noncentral chi-squared distribution with 2 degrees of freedom
and noncentrality `lam`, at `x`; this is `scipy.stats.ncx2.cdf(x, 2, lam)`.
Standard Poisson-mixture representation: the CDF is the expectation, over
`j ~ Poisson(lam/2)`, of the central chi-squared CDF with `2 + 2j` degrees of
freedom. -/
def ncx2cdf (x lam : ℝ) : ℝ :=
  if x < 0 then 0 else tsum (fun j : ℕ => poissonPMF (lam / 2) j * chi2EvenCDF j x)

/-- Embedding of the notebook's `true_positive_rate_given_snr_and_threshold`:
the power conversion factor is `1.0`, overwritten with `2.0` when `isPeak` is
false, and the result is
`1.0 - sp.stats.ncx2.cdf(2*(10**(threshold/10)), 2, factor*10**(snr/10))`. -/
def true_positive_rate_given_snr_and_threshold (threshold snr : ℝ)
    (isPeak : Bool := false) : ℝ :=
  let power_conversion_factor : ℝ := if isPeak then 1 else 2
  1 - ncx2cdf (2 * (10:ℝ) ^ (threshold / 10))
    (power_conversion_factor * (10:ℝ) ^ (snr / 10))

/-- Modelled from the spec: the Detection Probability Evaluator algorithm as
worded in the spec — `x = 2*10^(thresholdDb/10)`,
`lambda = factor*10^(snrDb/10)` with factor 1 for peak power and 2 for average
power, returning the survival function (1 minus CDF) of the noncentral
chi-squared distribution with 2 degrees of freedom.  Used only to state the
refinement claim against the source embedding. -/
def evaluate_detection_spec (thresholdDb snrDb : ℝ) (isPeakPower : Bool) : ℝ :=
  1 - ncx2cdf (2 * (10:ℝ) ^ (thresholdDb / 10))
    ((if isPeakPower then (1:ℝ) else 2) * (10:ℝ) ^ (snrDb / 10))

/-- IEEE-754-style value classes needed to model what the numpy/scipy pipeline
returns on out-of-domain inputs (the notebook performs no validation). -/
inductive FloatVal
  | finite (x : ℝ)
  | posInf
  | negInf
  | nan

/-- Float semantics of `scipy.special.gammaincinv(1, y)`: finite `-ln (1-y)`
for `y ∈ [0, 1)`, `inf` at `y = 1`, and `nan` for `y < 0` or `y > 1`. -/
def gammaincinv1F (y : ℝ) : FloatVal :=
  if y < 0 then FloatVal.nan
  else if y < 1 then FloatVal.finite (-Real.log (1 - y))
  else if y = 1 then FloatVal.posInf
  else FloatVal.nan

/-- Float semantics of `np.log10`: `-inf` at `0`, `nan` on negatives and on
`-inf`/`nan`, `inf` at `inf`. -/
def log10F : FloatVal → FloatVal
  | FloatVal.finite x =>
      if x < 0 then FloatVal.nan
      else if x = 0 then FloatVal.negInf
      else FloatVal.finite (Real.logb 10 x)
  | FloatVal.posInf => FloatVal.posInf
  | FloatVal.negInf => FloatVal.nan
  | FloatVal.nan => FloatVal.nan

/-- Float semantics of multiplication by the positive constant 10. -/
def mul10F : FloatVal → FloatVal
  | FloatVal.finite x => FloatVal.finite (10 * x)
  | FloatVal.posInf => FloatVal.posInf
  | FloatVal.negInf => FloatVal.negInf
  | FloatVal.nan => FloatVal.nan

/-- Float-semantics model of the notebook's threshold solver pipeline
`10*np.log10(sp.special.gammaincinv(1, 1-p))`, keeping track of the IEEE
special values produced outside the valid domain. -/
def snr_threshold_float (false_positive_rate : ℝ) : FloatVal :=
  mul10F (log10F (gammaincinv1F (1 - false_positive_rate)))

/-! ### Basic facts about the embedded special functions -/

open intervalIntegral in
theorem gammainc1_eq (x : ℝ) : gammainc1 x = 1 - Real.exp (-x) := by
  unfold gammainc1
  rw [integral_comp_neg, integral_exp]
  simp

theorem gammainc1_gammaincinv1 {y : ℝ} (hy : y < 1) :
    gammainc1 (gammaincinv1 y) = y := by
  rw [gammainc1_eq, gammaincinv1, neg_neg, Real.exp_log (by linarith)]
  ring

theorem gammaincinv1_one_sub (p : ℝ) : gammaincinv1 (1 - p) = -Real.log p := by
  unfold gammaincinv1
  rw [show (1:ℝ) - (1 - p) = p by ring]

theorem snr_threshold_eq (p : ℝ) :
    snr_threshold_given_false_positive_rate p = 10 * Real.logb 10 (-Real.log p) := by
  unfold snr_threshold_given_false_positive_rate
  rw [gammaincinv1_one_sub]

theorem neg_log_pos {p : ℝ} (hp0 : 0 < p) (hp1 : p < 1) : 0 < -Real.log p := by
  have := Real.log_neg hp0 hp1
  linarith

/-! ### The exponential series -/

theorem tsum_pow_div_factorial (y : ℝ) :
    tsum (fun j : ℕ => y ^ j / (j.factorial : ℝ)) = Real.exp y := by
  rw [Real.exp_eq_exp_ℝ, NormedSpace.exp_eq_tsum_div]

theorem summable_pow_div_fact (y : ℝ) :
    Summable (fun j : ℕ => y ^ j / (j.factorial : ℝ)) :=
  Real.summable_pow_div_factorial y

/-! ### Poisson weights -/

theorem poissonPMF_nonneg {mu : ℝ} (hmu : 0 ≤ mu) (j : ℕ) : 0 ≤ poissonPMF mu j := by
  unfold poissonPMF
  apply div_nonneg _ (Nat.cast_nonneg _)
  exact mul_nonneg (Real.exp_pos _).le (pow_nonneg hmu j)

theorem summable_poissonPMF (mu : ℝ) : Summable (poissonPMF mu) := by
  unfold poissonPMF
  simpa [mul_div_assoc] using (Real.summable_pow_div_factorial mu).mul_left (Real.exp (-mu))

theorem tsum_poissonPMF (mu : ℝ) : tsum (fun j : ℕ => poissonPMF mu j) = 1 := by
  unfold poissonPMF
  simp only [mul_div_assoc]
  rw [tsum_mul_left, tsum_pow_div_factorial, ← Real.exp_add]
  simp

/-! ### The central chi-squared CDFs of even degrees of freedom -/

theorem chi2EvenCDF_le_one {x : ℝ} (hx : 0 ≤ x) (j : ℕ) : chi2EvenCDF j x ≤ 1 := by
  unfold chi2EvenCDF
  have h1 : (0:ℝ) ≤ Real.exp (-(x / 2)) * ∑ m ∈ Finset.range (j + 1), (x / 2) ^ m / m.factorial := by
    apply mul_nonneg (Real.exp_pos _).le
    apply Finset.sum_nonneg
    intro m _
    exact div_nonneg (pow_nonneg (by linarith) m) (Nat.cast_nonneg _)
  linarith

theorem chi2EvenCDF_nonneg {x : ℝ} (hx : 0 ≤ x) (j : ℕ) : 0 ≤ chi2EvenCDF j x := by
  unfold chi2EvenCDF
  have hs : ∑ m ∈ Finset.range (j + 1), (x / 2) ^ m / (m.factorial : ℝ) ≤ Real.exp (x / 2) :=
    Real.sum_le_exp_of_nonneg (by linarith) (j + 1)
  have h2 : Real.exp (-(x / 2)) * ∑ m ∈ Finset.range (j + 1), (x / 2) ^ m / (m.factorial : ℝ)
      ≤ Real.exp (-(x / 2)) * Real.exp (x / 2) :=
    mul_le_mul_of_nonneg_left hs (Real.exp_pos _).le
  rw [← Real.exp_add] at h2
  simp only [neg_add_cancel, Real.exp_zero] at h2
  linarith

theorem chi2EvenCDF_succ (j : ℕ) (x : ℝ) :
    chi2EvenCDF (j + 1) x
      = chi2EvenCDF j x - Real.exp (-(x / 2)) * ((x / 2) ^ (j + 1) / (j + 1).factorial) := by
  unfold chi2EvenCDF
  rw [Finset.sum_range_succ]
  ring

theorem chi2EvenCDF_succ_le {x : ℝ} (hx : 0 ≤ x) (j : ℕ) :
    chi2EvenCDF (j + 1) x ≤ chi2EvenCDF j x := by
  rw [chi2EvenCDF_succ]
  have : (0:ℝ) ≤ Real.exp (-(x / 2)) * ((x / 2) ^ (j + 1) / (j + 1).factorial) := by
    apply mul_nonneg (Real.exp_pos _).le
    exact div_nonneg (pow_nonneg (by linarith) _) (Nat.cast_nonneg _)
  linarith

theorem chi2EvenCDF_zero (x : ℝ) : chi2EvenCDF 0 x = 1 - Real.exp (-(x / 2)) := by
  unfold chi2EvenCDF
  simp

/-! ### The noncentral chi-squared CDF: summability and range -/

theorem ncx2_term_nonneg {x lam : ℝ} (hx : 0 ≤ x) (hlam : 0 ≤ lam) (j : ℕ) :
    0 ≤ poissonPMF (lam / 2) j * chi2EvenCDF j x :=
  mul_nonneg (poissonPMF_nonneg (by linarith) j) (chi2EvenCDF_nonneg hx j)

theorem ncx2_term_le {x lam : ℝ} (hx : 0 ≤ x) (hlam : 0 ≤ lam) (j : ℕ) :
    poissonPMF (lam / 2) j * chi2EvenCDF j x ≤ poissonPMF (lam / 2) j :=
  mul_le_of_le_one_right (poissonPMF_nonneg (by linarith) j) (chi2EvenCDF_le_one hx j)

theorem summable_ncx2_term {x lam : ℝ} (hx : 0 ≤ x) (hlam : 0 ≤ lam) :
    Summable (fun j : ℕ => poissonPMF (lam / 2) j * chi2EvenCDF j x) :=
  Summable.of_nonneg_of_le (ncx2_term_nonneg hx hlam) (ncx2_term_le hx hlam)
    (summable_poissonPMF _)

theorem ncx2cdf_of_nonneg {x : ℝ} (hx : 0 ≤ x) (lam : ℝ) :
    ncx2cdf x lam = tsum (fun j : ℕ => poissonPMF (lam / 2) j * chi2EvenCDF j x) := by
  unfold ncx2cdf
  rw [if_neg (not_lt.mpr hx)]

theorem ncx2cdf_nonneg {lam : ℝ} (hlam : 0 ≤ lam) (x : ℝ) : 0 ≤ ncx2cdf x lam := by
  unfold ncx2cdf
  by_cases hx : x < 0
  · rw [if_pos hx]
  · rw [if_neg hx]
    exact tsum_nonneg (ncx2_term_nonneg (not_lt.mp hx) hlam)

theorem ncx2cdf_le_one {lam : ℝ} (hlam : 0 ≤ lam) (x : ℝ) : ncx2cdf x lam ≤ 1 := by
  unfold ncx2cdf
  by_cases hx : x < 0
  · rw [if_pos hx]
    exact zero_le_one
  · rw [if_neg hx]
    have hx' : 0 ≤ x := not_lt.mp hx
    calc tsum (fun j : ℕ => poissonPMF (lam / 2) j * chi2EvenCDF j x)
        ≤ tsum (fun j : ℕ => poissonPMF (lam / 2) j) :=
          tsum_le_tsum (ncx2_term_le hx' hlam) (summable_ncx2_term hx' hlam)
            (summable_poissonPMF _)
      _ = 1 := tsum_poissonPMF _

/-- The evaluator unfolded: survival of the noncentral chi-squared CDF at the
doubled linear threshold, with noncentrality factor 1 (peak) or 2 (average). -/
theorem tpr_eq (threshold snr : ℝ) (isPeak : Bool) :
    true_positive_rate_given_snr_and_threshold threshold snr isPeak
      = 1 - ncx2cdf (2 * (10:ℝ) ^ (threshold / 10))
          ((if isPeak then (1:ℝ) else 2) * (10:ℝ) ^ (snr / 10)) := rfl

/-- At noncentrality 0 the noncentral chi-squared CDF degenerates to the
central chi-squared CDF with 2 degrees of freedom. -/
theorem ncx2cdf_zero_lam {x : ℝ} (hx : 0 ≤ x) : ncx2cdf x 0 = chi2EvenCDF 0 x := by
  rw [ncx2cdf_of_nonneg hx]
  have h0 : ∀ j : ℕ, j ≠ 0 → poissonPMF ((0:ℝ) / 2) j * chi2EvenCDF j x = 0 := by
    intro j hj
    unfold poissonPMF
    rw [show (0:ℝ)/2 = 0 by norm_num, zero_pow hj]
    simp
  rw [tsum_eq_single 0 h0]
  unfold poissonPMF
  norm_num

/-- The linear-scale value of the solver's threshold is `-ln p`. -/
theorem linear_threshold_eq {p : ℝ} (hp0 : 0 < p) (hp1 : p < 1) :
    (10:ℝ) ^ (snr_threshold_given_false_positive_rate p / 10) = -Real.log p := by
  rw [snr_threshold_eq]
  rw [mul_div_assoc, show (10:ℝ) * (Real.logb 10 (-Real.log p) / 10) = Real.logb 10 (-Real.log p) by ring]
  exact Real.rpow_logb (by norm_num) (by norm_num) (neg_log_pos hp0 hp1)

/-! ### Claim C1 -/

/-- C1: the claim that for `p ∈ (0,1)` the solver output equals
`10*log10(-2*ln p)` within `1e-9` relative tolerance is false: at
`p = exp (-1)` the solver returns `0` while the claimed closed form is
`10*log10 2 ≈ 3.01`, a relative error of 100%. -/
theorem C1_counterexample :
    ¬ (|snr_threshold_given_false_positive_rate (Real.exp (-1))
          - 10 * Real.logb 10 (-2 * Real.log (Real.exp (-1)))|
        ≤ (1e-9) * |10 * Real.logb 10 (-2 * Real.log (Real.exp (-1)))|) := by
  have hlog : Real.log (Real.exp (-1)) = -1 := Real.log_exp _
  have hs : snr_threshold_given_false_positive_rate (Real.exp (-1)) = 0 := by
    rw [snr_threshold_eq (Real.exp (-1)), hlog]
    norm_num
  rw [hs, hlog, not_le, show (-2:ℝ) * -1 = 2 by norm_num]
  have hL : 0 < Real.logb 10 2 := Real.logb_pos (by norm_num) (by norm_num)
  rw [zero_sub, abs_neg, abs_of_pos (by linarith)]
  linarith

/-- C1 (amended): for every `p ∈ (0,1)` the solver output equals
`10*log10(-ln p)` exactly in real arithmetic; the spec's closed form
`10*log10(-2*ln p)` overshoots by the constant `10*log10 2 ≈ 3.01` dB (which
the evaluator compensates by doubling the linear threshold). -/
theorem C1_amended_closed_form {p : ℝ} (hp0 : 0 < p) (hp1 : p < 1) :
    snr_threshold_given_false_positive_rate p = 10 * Real.logb 10 (-Real.log p) :=
  snr_threshold_eq p

/-- Witness for C1 (amended) at `p = 1/2`. -/
theorem C1_witness :
    (0:ℝ) < 1/2 ∧ (1/2:ℝ) < 1 ∧
      snr_threshold_given_false_positive_rate (1/2)
        = 10 * Real.logb 10 (-Real.log (1/2)) :=
  ⟨by norm_num, by norm_num, C1_amended_closed_form (by norm_num) (by norm_num)⟩

/-! ### Claim C2 -/

/-- C2: the solver performs no domain validation.  On the four out-of-domain
inputs named by the spec the float pipeline returns the IEEE special values
`inf`, `-inf`, `nan`, `nan` — numeric results, never a signalled domain
error (the spec demands an explicit domain error here, so this is a bug in
the code relative to the spec). -/
theorem C2_no_domain_error :
    snr_threshold_float 0 = FloatVal.posInf ∧
    snr_threshold_float 1 = FloatVal.negInf ∧
    snr_threshold_float (-0.1) = FloatVal.nan ∧
    snr_threshold_float 1.5 = FloatVal.nan := by
  refine ⟨?_, ?_, ?_, ?_⟩ <;>
    norm_num [snr_threshold_float, gammaincinv1F, log10F, mul10F, Real.log_one]

/-! ### Claim C3 -/

/-- C3: for `p ∈ (0,1)` the solver returns exactly `10*log10` of the (unique)
inverse of the regularized lower incomplete gamma function of shape 1 at
`1 - p`, where that gamma function is defined by its integral. -/
theorem C3_solver_inverts_incomplete_gamma {p : ℝ} (hp0 : 0 < p) (hp1 : p < 1) :
    gammainc1 (gammaincinv1 (1 - p)) = 1 - p ∧
    snr_threshold_given_false_positive_rate p
      = 10 * Real.logb 10 (gammaincinv1 (1 - p)) ∧
    ∀ L : ℝ, gammainc1 L = 1 - p → L = gammaincinv1 (1 - p) := by
  refine ⟨gammainc1_gammaincinv1 (by linarith), rfl, ?_⟩
  intro L hL
  rw [gammainc1_eq] at hL
  have hexp : Real.exp (-L) = p := by linarith
  have hlog : -L = Real.log p := by rw [← hexp, Real.log_exp]
  rw [gammaincinv1_one_sub]
  linarith

/-- Witness for C3 at `p = 1/2`. -/
theorem C3_witness :
    (0:ℝ) < 1/2 ∧ (1/2:ℝ) < 1 ∧
      (gammainc1 (gammaincinv1 (1 - 1/2)) = 1 - 1/2 ∧
       snr_threshold_given_false_positive_rate (1/2)
         = 10 * Real.logb 10 (gammaincinv1 (1 - 1/2)) ∧
       ∀ L : ℝ, gammainc1 L = 1 - 1/2 → L = gammaincinv1 (1 - 1/2)) :=
  ⟨by norm_num, by norm_num, C3_solver_inverts_incomplete_gamma (by norm_num) (by norm_num)⟩

/-! ### Claim C4 -/

/-- C4: for all real `thresholdDb`, `snrDb` and each Boolean convention flag,
the evaluator returns 1 minus the noncentral chi-squared CDF (2 degrees of
freedom) with noncentrality `factor * 10^(snrDb/10)` at `2 * 10^(thresholdDb/10)`,
the factor being 1 for peak power and 2 for average power — i.e. the source
agrees with the spec-worded algorithm. -/
theorem C4_evaluator_matches_spec_algorithm (thresholdDb snrDb : ℝ) (isPeakPower : Bool) :
    true_positive_rate_given_snr_and_threshold thresholdDb snrDb isPeakPower
      = evaluate_detection_spec thresholdDb snrDb isPeakPower := by
  cases isPeakPower <;> rfl

/-! ### Claim C5 -/

/-- C5: round trip of the pair.  For `p ∈ (0,1)`, the noise-only exceedance
probability at the solver's threshold — 1 minus the central chi-squared CDF
with 2 degrees of freedom at the doubled linear point
`2*10^(solve_threshold(p)/10)` — recovers `p` exactly. -/
theorem C5_round_trip {p : ℝ} (hp0 : 0 < p) (hp1 : p < 1) :
    1 - chi2EvenCDF 0 (2 * (10:ℝ) ^ (snr_threshold_given_false_positive_rate p / 10)) = p ∧
    1 - ncx2cdf (2 * (10:ℝ) ^ (snr_threshold_given_false_positive_rate p / 10)) 0 = p := by
  have hlin := linear_threshold_eq hp0 hp1
  have hpos : 0 < -Real.log p := neg_log_pos hp0 hp1
  have hchi : chi2EvenCDF 0 (2 * (10:ℝ) ^ (snr_threshold_given_false_positive_rate p / 10)) = 1 - p := by
    rw [hlin, chi2EvenCDF_zero, show -(2 * -Real.log p / 2) = Real.log p by ring,
      Real.exp_log hp0]
  constructor
  · rw [hchi]; ring
  · rw [ncx2cdf_zero_lam (by rw [hlin]; linarith), hchi]; ring

/-- Witness for C5 at `p = 1/2`. -/
theorem C5_witness :
    (0:ℝ) < 1/2 ∧ (1/2:ℝ) < 1 ∧
      (1 - chi2EvenCDF 0 (2 * (10:ℝ) ^ (snr_threshold_given_false_positive_rate (1/2) / 10)) = 1/2 ∧
       1 - ncx2cdf (2 * (10:ℝ) ^ (snr_threshold_given_false_positive_rate (1/2) / 10)) 0 = 1/2) :=
  ⟨by norm_num, by norm_num, C5_round_trip (by norm_num) (by norm_num)⟩

/-! ### Claim C6 -/

/-- C6: for all real inputs and either convention flag, the evaluator's result
lies in the closed unit interval. -/
theorem C6_evaluator_in_unit_interval (thresholdDb snrDb : ℝ) (isPeakPower : Bool) :
    0 ≤ true_positive_rate_given_snr_and_threshold thresholdDb snrDb isPeakPower ∧
    true_positive_rate_given_snr_and_threshold thresholdDb snrDb isPeakPower ≤ 1 := by
  rw [tpr_eq]
  have hlam : 0 ≤ (if isPeakPower then (1:ℝ) else 2) * (10:ℝ) ^ (snrDb / 10) := by
    apply mul_nonneg _ (Real.rpow_nonneg (by norm_num) _)
    cases isPeakPower <;> norm_num
  constructor
  · have h := ncx2cdf_le_one hlam (2 * (10:ℝ) ^ (thresholdDb / 10))
    linarith
  · have h := ncx2cdf_nonneg hlam (2 * (10:ℝ) ^ (thresholdDb / 10))
    linarith

/-! ### Claim C7 -/

/-- C7: the average-power result equals the peak-power result at an SNR offset
by exactly `10*log10 2` dB. -/
theorem C7_convention_offset (threshold_db snr_db : ℝ) :
    true_positive_rate_given_snr_and_threshold threshold_db snr_db false
      = true_positive_rate_given_snr_and_threshold threshold_db
          (snr_db + 10 * Real.logb 10 2) true := by
  rw [tpr_eq, tpr_eq]
  have harg : (snr_db + 10 * Real.logb 10 2) / 10 = snr_db / 10 + Real.logb 10 2 := by
    ring
  rw [harg, Real.rpow_add (by norm_num),
    Real.rpow_logb (by norm_num) (by norm_num) (by norm_num)]
  norm_num
  ring_nf

/-! ### Claim C8 -/

/-- C8: the solver is strictly decreasing on `(0,1)`. -/
theorem C8_solver_strictly_decreasing {p1 p2 : ℝ} (h0 : 0 < p1) (h12 : p1 < p2) (h1 : p2 < 1) :
    snr_threshold_given_false_positive_rate p2 < snr_threshold_given_false_positive_rate p1 := by
  rw [snr_threshold_eq, snr_threshold_eq]
  have hp2 : 0 < -Real.log p2 := neg_log_pos (by linarith) h1
  have hlt : -Real.log p2 < -Real.log p1 := by
    have := Real.log_lt_log h0 h12
    linarith
  have := Real.logb_lt_logb (by norm_num : (1:ℝ) < 10) hp2 hlt
  linarith

/-- Witness for C8 at `p1 = 1/4`, `p2 = 1/2`. -/
theorem C8_witness :
    (0:ℝ) < 1/4 ∧ (1/4:ℝ) < 1/2 ∧ (1/2:ℝ) < 1 ∧
      snr_threshold_given_false_positive_rate (1/2)
        < snr_threshold_given_false_positive_rate (1/4) :=
  ⟨by norm_num, by norm_num, by norm_num,
    C8_solver_strictly_decreasing (by norm_num) (by norm_num) (by norm_num)⟩

/-! ### Monotonicity of the noncentral chi-squared CDF in the noncentrality -/

/-- Poisson CDF: probability that a Poisson variable of mean `mu` is `≤ m`. -/
def poissonCDF (mu : ℝ) (m : ℕ) : ℝ := ∑ j ∈ Finset.range (m + 1), poissonPMF mu j

theorem hasDerivAt_poissonCDF (m : ℕ) (mu : ℝ) :
    HasDerivAt (fun t => poissonCDF t m)
      (-(Real.exp (-mu) * mu ^ m / (m.factorial : ℝ))) mu := by
  induction m with
  | zero =>
    have h : (fun t => poissonCDF t 0) = fun t => Real.exp (-t) := by
      funext t
      unfold poissonCDF poissonPMF
      simp
    rw [h]
    have hd : HasDerivAt (fun t : ℝ => Real.exp (-t)) (Real.exp (-mu) * (-1)) mu :=
      HasDerivAt.exp (hasDerivAt_id mu).neg
    convert hd using 1
    simp
  | succ n ih =>
    have hstep : (fun t => poissonCDF t (n + 1))
        = fun t => poissonCDF t n + poissonPMF t (n + 1) := by
      funext t
      unfold poissonCDF
      rw [Finset.sum_range_succ]
    rw [hstep]
    have h1 : HasDerivAt (fun t : ℝ => Real.exp (-t)) (Real.exp (-mu) * (-1)) mu :=
      HasDerivAt.exp (hasDerivAt_id mu).neg
    have h2 : HasDerivAt (fun t : ℝ => t ^ (n + 1)) ((n + 1) * mu ^ n) mu := by
      simpa using hasDerivAt_pow (n + 1) mu
    have h3 := (h1.mul h2).div_const (((n + 1).factorial : ℝ))
    have hterm : HasDerivAt (fun t => poissonPMF t (n + 1))
        (Real.exp (-mu) * mu ^ n / (n.factorial : ℝ)
          - Real.exp (-mu) * mu ^ (n + 1) / ((n + 1).factorial : ℝ)) mu := by
      unfold poissonPMF
      convert h3 using 1
      have hfact : (((n + 1).factorial : ℕ) : ℝ) = (n + 1) * (n.factorial : ℝ) := by
        rw [Nat.factorial_succ]
        push_cast
        ring
      rw [hfact]
      have hn0 : (n.factorial : ℝ) ≠ 0 := Nat.cast_ne_zero.mpr n.factorial_ne_zero
      have hn1 : (0:ℝ) < (n:ℝ) + 1 := by positivity
      field_simp
      ring
    have := ih.add hterm
    convert this using 1
    have hfact : (((n + 1).factorial : ℕ) : ℝ) = (n + 1) * (n.factorial : ℝ) := by
      rw [Nat.factorial_succ]
      push_cast
      ring
    rw [hfact]
    have hn0 : (n.factorial : ℝ) ≠ 0 := Nat.cast_ne_zero.mpr n.factorial_ne_zero
    have hn1 : (0:ℝ) < (n:ℝ) + 1 := by positivity
    field_simp
    ring

theorem poissonCDF_antitoneOn (m : ℕ) :
    AntitoneOn (fun mu => poissonCDF mu m) (Set.Ici (0:ℝ)) := by
  apply antitoneOn_of_deriv_nonpos (convex_Ici 0)
  · intro t _
    exact (hasDerivAt_poissonCDF m t).continuousAt.continuousWithinAt
  · intro t _
    exact (hasDerivAt_poissonCDF m t).differentiableAt.differentiableWithinAt
  · intro t ht
    rw [interior_Ici] at ht
    rw [(hasDerivAt_poissonCDF m t).deriv]
    have ht' : (0:ℝ) ≤ t := le_of_lt ht
    have hnn : 0 ≤ Real.exp (-t) * t ^ m / (m.factorial : ℝ) :=
      div_nonneg (mul_nonneg (Real.exp_pos _).le (pow_nonneg ht' m)) (Nat.cast_nonneg _)
    linarith

/-- Abel summation for a weighted partial sum against partial sums of the
weights. -/
theorem abel_sum (w a : ℕ → ℝ) (N : ℕ) :
    ∑ j ∈ Finset.range (N + 1), w j * a j
      = (∑ m ∈ Finset.range N, (a m - a (m + 1)) * ∑ j ∈ Finset.range (m + 1), w j)
        + a N * ∑ j ∈ Finset.range (N + 1), w j := by
  induction N with
  | zero => simp [mul_comm]
  | succ n ih =>
    have lhs : ∑ j ∈ Finset.range (n + 1 + 1), w j * a j
        = (∑ j ∈ Finset.range (n + 1), w j * a j) + w (n + 1) * a (n + 1) :=
      Finset.sum_range_succ _ _
    have h1 : ∑ m ∈ Finset.range (n + 1), (a m - a (m + 1)) * ∑ j ∈ Finset.range (m + 1), w j
        = (∑ m ∈ Finset.range n, (a m - a (m + 1)) * ∑ j ∈ Finset.range (m + 1), w j)
          + (a n - a (n + 1)) * ∑ j ∈ Finset.range (n + 1), w j :=
      Finset.sum_range_succ _ _
    have h2 : ∑ j ∈ Finset.range (n + 1 + 1), w j
        = (∑ j ∈ Finset.range (n + 1), w j) + w (n + 1) :=
      Finset.sum_range_succ _ _
    rw [lhs, ih, h1, h2]
    ring

/-- Abel summation specialized to the noncentral chi-squared mixture. -/
theorem abel_sum_ncx2 (x mu : ℝ) (N : ℕ) :
    ∑ j ∈ Finset.range (N + 1), poissonPMF mu j * chi2EvenCDF j x
      = (∑ m ∈ Finset.range N, (chi2EvenCDF m x - chi2EvenCDF (m + 1) x) * poissonCDF mu m)
        + chi2EvenCDF N x * poissonCDF mu N :=
  abel_sum (poissonPMF mu) (fun j => chi2EvenCDF j x) N

/-- Partial sums of the mixture are pointwise antitone in the Poisson mean. -/
theorem partial_ncx2_anti {x : ℝ} (hx : 0 ≤ x) {mu nu : ℝ} (h0 : 0 ≤ mu) (hmn : mu ≤ nu)
    (N : ℕ) :
    ∑ j ∈ Finset.range (N + 1), poissonPMF nu j * chi2EvenCDF j x
      ≤ ∑ j ∈ Finset.range (N + 1), poissonPMF mu j * chi2EvenCDF j x := by
  have hW : ∀ m : ℕ, poissonCDF nu m ≤ poissonCDF mu m := fun m =>
    poissonCDF_antitoneOn m (Set.mem_Ici.mpr h0) (Set.mem_Ici.mpr (le_trans h0 hmn)) hmn
  rw [abel_sum_ncx2 x nu N, abel_sum_ncx2 x mu N]
  apply add_le_add
  · apply Finset.sum_le_sum
    intro m _
    apply mul_le_mul_of_nonneg_left (hW m)
    have := chi2EvenCDF_succ_le hx m
    linarith
  · exact mul_le_mul_of_nonneg_left (hW N) (chi2EvenCDF_nonneg hx N)

/-- The noncentral chi-squared CDF is antitone in the noncentrality parameter. -/
theorem ncx2cdf_anti (x : ℝ) {lam lam' : ℝ} (hlam : 0 ≤ lam) (hll : lam ≤ lam') :
    ncx2cdf x lam' ≤ ncx2cdf x lam := by
  by_cases hx : x < 0
  · unfold ncx2cdf
    rw [if_pos hx, if_pos hx]
  · have hx' : 0 ≤ x := not_lt.mp hx
    rw [ncx2cdf_of_nonneg hx', ncx2cdf_of_nonneg hx']
    have hlam' : 0 ≤ lam' := le_trans hlam hll
    have hs1 := summable_ncx2_term hx' hlam'
    have hs2 := summable_ncx2_term hx' hlam
    have t1 : Filter.Tendsto
        (fun N => ∑ j ∈ Finset.range (N + 1), poissonPMF (lam' / 2) j * chi2EvenCDF j x)
        Filter.atTop (nhds (tsum (fun j : ℕ => poissonPMF (lam' / 2) j * chi2EvenCDF j x))) :=
      hs1.hasSum.tendsto_sum_nat.comp (Filter.tendsto_add_atTop_nat 1)
    have t2 : Filter.Tendsto
        (fun N => ∑ j ∈ Finset.range (N + 1), poissonPMF (lam / 2) j * chi2EvenCDF j x)
        Filter.atTop (nhds (tsum (fun j : ℕ => poissonPMF (lam / 2) j * chi2EvenCDF j x))) :=
      hs2.hasSum.tendsto_sum_nat.comp (Filter.tendsto_add_atTop_nat 1)
    exact le_of_tendsto_of_tendsto' t1 t2
      (fun N => partial_ncx2_anti hx' (by linarith) (by linarith) N)

/-! ### Claim C9 -/

/-- C9: for fixed threshold and convention flag, the evaluator is
non-decreasing in the SNR. -/
theorem C9_monotone_in_snr {threshold_db snr1 snr2 : ℝ} (h : snr1 ≤ snr2) (isPeakPower : Bool) :
    true_positive_rate_given_snr_and_threshold threshold_db snr1 isPeakPower
      ≤ true_positive_rate_given_snr_and_threshold threshold_db snr2 isPeakPower := by
  rw [tpr_eq, tpr_eq]
  have hc : 0 < (if isPeakPower then (1:ℝ) else 2) := by
    cases isPeakPower <;> norm_num
  have hlam1 : 0 ≤ (if isPeakPower then (1:ℝ) else 2) * (10:ℝ) ^ (snr1 / 10) :=
    le_of_lt (mul_pos hc (Real.rpow_pos_of_pos (by norm_num) _))
  have hle : (if isPeakPower then (1:ℝ) else 2) * (10:ℝ) ^ (snr1 / 10)
      ≤ (if isPeakPower then (1:ℝ) else 2) * (10:ℝ) ^ (snr2 / 10) :=
    mul_le_mul_of_nonneg_left
      (Real.rpow_le_rpow_of_exponent_le (by norm_num) (by linarith)) hc.le
  have := ncx2cdf_anti (2 * (10:ℝ) ^ (threshold_db / 10)) hlam1 hle
  linarith

/-- Witness for C9 at `threshold_db = 0`, `snr1 = 0`, `snr2 = 1`, average
power. -/
theorem C9_witness :
    (0:ℝ) ≤ 1 ∧
      true_positive_rate_given_snr_and_threshold 0 0 false
        ≤ true_positive_rate_given_snr_and_threshold 0 1 false :=
  ⟨by norm_num, C9_monotone_in_snr (by norm_num) false⟩

/-! ### The detection probability exactly at threshold

For `x = lam = 2*y` the Poisson-mixture CDF admits the closed form
`1/2 - exp (-2y) * (∑ (y^m/m!)^2) / 2`, proved by a triangular double-sum
swap.  This settles the behaviour of the evaluator at `snr = threshold`. -/

/-- Term of the exponential series. -/
def expTerm (y : ℝ) (m : ℕ) : ℝ := y ^ m / m.factorial

/-- Partial sum of the exponential series. -/
def expPartial (y : ℝ) (n : ℕ) : ℝ := ∑ m ∈ Finset.range n, expTerm y m

/-- Lower-triangular product array of exponential series terms. -/
def triangleF (y : ℝ) (j m : ℕ) : ℝ :=
  if m ≤ j then expTerm y j * expTerm y m else 0

/-- Diagonal sum of the triangular array: `∑ (y^m/m!)^2`. -/
def Dsum (y : ℝ) : ℝ := tsum (fun m : ℕ => expTerm y m * expTerm y m)

theorem expTerm_nonneg {y : ℝ} (hy : 0 ≤ y) (m : ℕ) : 0 ≤ expTerm y m :=
  div_nonneg (pow_nonneg hy m) (Nat.cast_nonneg _)

theorem summable_expTerm (y : ℝ) : Summable (expTerm y) :=
  Real.summable_pow_div_factorial y

theorem tsum_expTerm (y : ℝ) : tsum (fun m : ℕ => expTerm y m) = Real.exp y :=
  tsum_pow_div_factorial y

theorem expTerm_le_exp {y : ℝ} (hy : 0 ≤ y) (m : ℕ) : expTerm y m ≤ Real.exp y := by
  have h := le_tsum (summable_expTerm y) m (fun j _ => expTerm_nonneg hy j)
  rwa [tsum_expTerm] at h

theorem expPartial_le_exp {y : ℝ} (hy : 0 ≤ y) (n : ℕ) : expPartial y n ≤ Real.exp y :=
  Real.sum_le_exp_of_nonneg hy n

theorem expPartial_nonneg {y : ℝ} (hy : 0 ≤ y) (n : ℕ) : 0 ≤ expPartial y n :=
  Finset.sum_nonneg fun m _ => expTerm_nonneg hy m

theorem expPartial_succ (y : ℝ) (n : ℕ) :
    expPartial y (n + 1) = expPartial y n + expTerm y n :=
  Finset.sum_range_succ _ _

theorem tail_eq (y : ℝ) (m : ℕ) :
    tsum (fun i : ℕ => expTerm y (i + m)) = Real.exp y - expPartial y m := by
  have h := sum_add_tsum_nat_add m (summable_expTerm y)
  rw [tsum_expTerm] at h
  have hdef : expPartial y m = ∑ i ∈ Finset.range m, expTerm y i := rfl
  linarith [h]

theorem chi2EvenCDF_two_mul (y : ℝ) (j : ℕ) :
    chi2EvenCDF j (2 * y) = 1 - Real.exp (-y) * expPartial y (j + 1) := by
  unfold chi2EvenCDF expPartial expTerm
  rw [show (2 * y) / 2 = y by ring]

theorem triangleF_eq_zero {y : ℝ} {j m : ℕ} (h : j < m) : triangleF y j m = 0 := by
  unfold triangleF
  rw [if_neg (not_le.mpr h)]

theorem triangleF_nonneg {y : ℝ} (hy : 0 ≤ y) (j m : ℕ) : 0 ≤ triangleF y j m := by
  unfold triangleF
  split
  · exact mul_nonneg (expTerm_nonneg hy j) (expTerm_nonneg hy m)
  · exact le_refl 0

theorem triangleF_row_supp (y : ℝ) (j : ℕ) :
    ∀ m ∉ Finset.range (j + 1), triangleF y j m = 0 := by
  intro m hm
  rw [Finset.mem_range] at hm
  exact triangleF_eq_zero (by omega)

theorem triangleF_row_summable (y : ℝ) (j : ℕ) : Summable (fun m => triangleF y j m) :=
  summable_of_ne_finset_zero (triangleF_row_supp y j)

theorem triangleF_row (y : ℝ) (j : ℕ) :
    tsum (fun m : ℕ => triangleF y j m) = expTerm y j * expPartial y (j + 1) := by
  rw [tsum_eq_sum (triangleF_row_supp y j)]
  unfold expPartial
  rw [Finset.mul_sum]
  apply Finset.sum_congr rfl
  intro m hm
  unfold triangleF
  rw [if_pos (Nat.lt_succ_iff.mp (Finset.mem_range.mp hm))]

theorem triangleF_le {y : ℝ} (hy : 0 ≤ y) (j m : ℕ) :
    triangleF y j m ≤ expTerm y j * expTerm y m := by
  unfold triangleF
  split
  · exact le_refl _
  · exact mul_nonneg (expTerm_nonneg hy j) (expTerm_nonneg hy m)

theorem triangleF_col_summable {y : ℝ} (hy : 0 ≤ y) (m : ℕ) :
    Summable (fun j => triangleF y j m) :=
  Summable.of_nonneg_of_le (fun j => triangleF_nonneg hy j m)
    (fun j => triangleF_le hy j m) ((summable_expTerm y).mul_right _)

theorem triangleF_col {y : ℝ} (hy : 0 ≤ y) (m : ℕ) :
    tsum (fun j : ℕ => triangleF y j m) = expTerm y m * (Real.exp y - expPartial y m) := by
  have h := sum_add_tsum_nat_add m (triangleF_col_summable hy m)
  have hz : ∑ j ∈ Finset.range m, triangleF y j m = 0 :=
    Finset.sum_eq_zero fun j hj => triangleF_eq_zero (Finset.mem_range.mp hj)
  rw [hz, zero_add] at h
  rw [← h]
  have hshift : ∀ i : ℕ, triangleF y (i + m) m = expTerm y (i + m) * expTerm y m := by
    intro i
    unfold triangleF
    rw [if_pos (Nat.le_add_left m i)]
  calc tsum (fun i : ℕ => triangleF y (i + m) m)
      = tsum (fun i : ℕ => expTerm y (i + m) * expTerm y m) := tsum_congr hshift
    _ = (tsum (fun i : ℕ => expTerm y (i + m))) * expTerm y m := tsum_mul_right
    _ = (Real.exp y - expPartial y m) * expTerm y m := by rw [tail_eq]
    _ = expTerm y m * (Real.exp y - expPartial y m) := by ring

theorem summable_mul_expPartial {y : ℝ} (hy : 0 ≤ y) :
    Summable (fun j => expTerm y j * expPartial y (j + 1)) :=
  Summable.of_nonneg_of_le
    (fun j => mul_nonneg (expTerm_nonneg hy j) (expPartial_nonneg hy (j + 1)))
    (fun j => mul_le_mul_of_nonneg_left (expPartial_le_exp hy (j + 1)) (expTerm_nonneg hy j))
    ((summable_expTerm y).mul_right _)

theorem summable_mul_expPartial' {y : ℝ} (hy : 0 ≤ y) :
    Summable (fun j => expTerm y j * expPartial y j) :=
  Summable.of_nonneg_of_le
    (fun j => mul_nonneg (expTerm_nonneg hy j) (expPartial_nonneg hy j))
    (fun j => mul_le_mul_of_nonneg_left (expPartial_le_exp hy j) (expTerm_nonneg hy j))
    ((summable_expTerm y).mul_right _)

theorem summable_sq {y : ℝ} (hy : 0 ≤ y) :
    Summable (fun m => expTerm y m * expTerm y m) :=
  Summable.of_nonneg_of_le
    (fun m => mul_nonneg (expTerm_nonneg hy m) (expTerm_nonneg hy m))
    (fun m => mul_le_mul_of_nonneg_left (expTerm_le_exp hy m) (expTerm_nonneg hy m))
    ((summable_expTerm y).mul_right _)

theorem triangleF_summable {y : ℝ} (hy : 0 ≤ y) :
    Summable (Function.uncurry (triangleF y)) := by
  apply (summable_prod_of_nonneg (fun p => triangleF_nonneg hy p.1 p.2)).mpr
  constructor
  · intro j
    exact triangleF_row_summable y j
  · have hrw : (fun j => tsum (fun m : ℕ => triangleF y j m))
        = fun j => expTerm y j * expPartial y (j + 1) := funext (triangleF_row y)
    rw [hrw]
    exact summable_mul_expPartial hy

/-- Triangular Fubini: summing the array by rows equals summing it by
columns. -/
theorem tsum_triangle_swap {y : ℝ} (hy : 0 ≤ y) :
    tsum (fun j : ℕ => expTerm y j * expPartial y (j + 1))
      = tsum (fun m : ℕ => expTerm y m * (Real.exp y - expPartial y m)) := by
  have hcomm := tsum_comm' (triangleF_summable hy) (fun j => triangleF_row_summable y j)
    (fun m => triangleF_col_summable hy m)
  calc tsum (fun j : ℕ => expTerm y j * expPartial y (j + 1))
      = tsum (fun j : ℕ => tsum (fun m : ℕ => triangleF y j m)) :=
        tsum_congr fun j => (triangleF_row y j).symm
    _ = tsum (fun m : ℕ => tsum (fun j : ℕ => triangleF y j m)) := hcomm.symm
    _ = tsum (fun m : ℕ => expTerm y m * (Real.exp y - expPartial y m)) :=
        tsum_congr fun m => triangleF_col hy m

/-- The central identity `2T = e^y·e^y + D` for the triangular sum `T`. -/
theorem two_mul_triangle {y : ℝ} (hy : 0 ≤ y) :
    2 * tsum (fun j : ℕ => expTerm y j * expPartial y (j + 1))
      = Real.exp y * Real.exp y + Dsum y := by
  have h1 : tsum (fun j : ℕ => expTerm y j * expPartial y (j + 1))
      = tsum (fun j : ℕ => expTerm y j * expPartial y j) + Dsum y := by
    calc tsum (fun j : ℕ => expTerm y j * expPartial y (j + 1))
        = tsum (fun j : ℕ => expTerm y j * expPartial y j + expTerm y j * expTerm y j) :=
          tsum_congr fun j => by rw [expPartial_succ]; ring
      _ = tsum (fun j : ℕ => expTerm y j * expPartial y j)
            + tsum (fun j : ℕ => expTerm y j * expTerm y j) :=
          tsum_add (summable_mul_expPartial' hy) (summable_sq hy)
  have h2 : tsum (fun j : ℕ => expTerm y j * expPartial y (j + 1))
      = Real.exp y * Real.exp y - tsum (fun j : ℕ => expTerm y j * expPartial y j) := by
    rw [tsum_triangle_swap hy]
    calc tsum (fun m : ℕ => expTerm y m * (Real.exp y - expPartial y m))
        = tsum (fun m : ℕ => expTerm y m * Real.exp y - expTerm y m * expPartial y m) :=
          tsum_congr fun m => by ring
      _ = tsum (fun m : ℕ => expTerm y m * Real.exp y)
            - tsum (fun m : ℕ => expTerm y m * expPartial y m) :=
          tsum_sub ((summable_expTerm y).mul_right _) (summable_mul_expPartial' hy)
      _ = Real.exp y * Real.exp y - tsum (fun m : ℕ => expTerm y m * expPartial y m) := by
          rw [tsum_mul_right, tsum_expTerm]
  linarith

theorem exp_neg_two_mul_cancel (y : ℝ) :
    Real.exp (-(2 * y)) * (Real.exp y * Real.exp y) = 1 := by
  rw [← Real.exp_add, ← Real.exp_add, show -(2 * y) + (y + y) = 0 by ring, Real.exp_zero]

/-- Closed form of the noncentral chi-squared CDF at `x = lam = 2y`. -/
theorem ncx2cdf_self_eq {y : ℝ} (hy : 0 < y) :
    ncx2cdf (2 * y) (2 * y) = 1 / 2 - Real.exp (-(2 * y)) * Dsum y / 2 := by
  have hy' : 0 ≤ y := hy.le
  have hx : (0:ℝ) ≤ 2 * y := by linarith
  rw [ncx2cdf_of_nonneg hx]
  have hterm : ∀ j : ℕ, poissonPMF ((2 * y) / 2) j * chi2EvenCDF j (2 * y)
      = Real.exp (-y) * expTerm y j
        - Real.exp (-(2 * y)) * (expTerm y j * expPartial y (j + 1)) := by
    intro j
    have hexp2 : Real.exp (-(2 * y)) = Real.exp (-y) * Real.exp (-y) := by
      rw [← Real.exp_add]
      congr 1
      ring
    rw [show (2 * y) / 2 = y by ring, chi2EvenCDF_two_mul, hexp2]
    unfold poissonPMF expTerm
    ring
  rw [tsum_congr hterm,
    tsum_sub ((summable_expTerm y).mul_left _) ((summable_mul_expPartial hy').mul_left _),
    tsum_mul_left, tsum_mul_left, tsum_expTerm]
  have hT := two_mul_triangle hy'
  have h1 : Real.exp (-y) * Real.exp y = 1 := by
    rw [← Real.exp_add, show -y + y = 0 by ring, Real.exp_zero]
  have h2 := exp_neg_two_mul_cancel y
  have hTval : tsum (fun j : ℕ => expTerm y j * expPartial y (j + 1))
      = (Real.exp y * Real.exp y + Dsum y) / 2 := by linarith
  rw [h1, hTval]
  have hsplit : Real.exp (-(2 * y)) * ((Real.exp y * Real.exp y + Dsum y) / 2)
      = (Real.exp (-(2 * y)) * (Real.exp y * Real.exp y)
          + Real.exp (-(2 * y)) * Dsum y) / 2 := by ring
  rw [hsplit, h2]
  ring

theorem Dsum_ge_one {y : ℝ} (hy : 0 ≤ y) : 1 ≤ Dsum y := by
  have h := le_tsum (summable_sq hy) 0
    (fun j _ => mul_nonneg (expTerm_nonneg hy j) (expTerm_nonneg hy j))
  simpa [expTerm] using h

theorem Dsum_lt {y : ℝ} (hy : 0 < y) : Dsum y < Real.exp y * Real.exp y := by
  have hy' := hy.le
  have h0 : expTerm y 0 = 1 := by simp [expTerm]
  have hlt : expTerm y 0 * expTerm y 0 < expTerm y 0 * Real.exp y := by
    rw [h0, one_mul, one_mul]
    have := Real.add_one_lt_exp (ne_of_gt hy)
    linarith
  have hle : ∀ m, expTerm y m * expTerm y m ≤ expTerm y m * Real.exp y :=
    fun m => mul_le_mul_of_nonneg_left (expTerm_le_exp hy' m) (expTerm_nonneg hy' m)
  have hmain := tsum_lt_tsum hle hlt (summable_sq hy') ((summable_expTerm y).mul_right _)
  calc Dsum y < tsum (fun m : ℕ => expTerm y m * Real.exp y) := hmain
    _ = (tsum (fun m : ℕ => expTerm y m)) * Real.exp y := tsum_mul_right
    _ = Real.exp y * Real.exp y := by rw [tsum_expTerm]

theorem ncx2cdf_self_lt_half {y : ℝ} (hy : 0 < y) : ncx2cdf (2 * y) (2 * y) < 1 / 2 := by
  rw [ncx2cdf_self_eq hy]
  have hD := Dsum_ge_one hy.le
  have hE := Real.exp_pos (-(2 * y))
  nlinarith

theorem ncx2cdf_self_pos {y : ℝ} (hy : 0 < y) : 0 < ncx2cdf (2 * y) (2 * y) := by
  rw [ncx2cdf_self_eq hy]
  have hD := Dsum_lt hy
  have hE := Real.exp_pos (-(2 * y))
  have hcancel := exp_neg_two_mul_cancel y
  have hmul := mul_lt_mul_of_pos_left hD hE
  rw [hcancel] at hmul
  linarith

/-! ### Claim C10 -/

/-- C10: the claim that at `snr_db = threshold_db` (average power) the
detection probability lies strictly between 0 and 0.5 is false: at
`t = 0` the value is strictly greater than 1/2. -/
theorem C10_counterexample :
    ¬ (0 < true_positive_rate_given_snr_and_threshold 0 0 false ∧
       true_positive_rate_given_snr_and_threshold 0 0 false < 1 / 2) := by
  rintro ⟨-, hlt⟩
  have h := ncx2cdf_self_lt_half (show (0:ℝ) < 1 by norm_num)
  have h0 : true_positive_rate_given_snr_and_threshold 0 0 false
      = 1 - ncx2cdf (2 * 1) (2 * 1) := by
    rw [tpr_eq]
    norm_num
  rw [h0] at hlt
  linarith

/-- C10 (amended): at `snr_db = threshold_db = t` under the average-power
convention the detection probability lies strictly between 0.5 and 1 — it is
strictly *above* one half (value `1/2 + exp (-2u) * I₀-series / 2` with
`u = 10^(t/10)`), not below it. -/
theorem C10_amended_detection_at_threshold (t : ℝ) :
    1 / 2 < true_positive_rate_given_snr_and_threshold t t false ∧
    true_positive_rate_given_snr_and_threshold t t false < 1 := by
  rw [tpr_eq]
  have hu : 0 < (10:ℝ) ^ (t / 10) := Real.rpow_pos_of_pos (by norm_num) _
  have h1 := ncx2cdf_self_lt_half hu
  have h2 := ncx2cdf_self_pos hu
  have hif : (if (false : Bool) then (1:ℝ) else 2) = 2 := rfl
  rw [hif]
  constructor <;> linarith

end Detection
